import Mathlib

/-!
Verification development for the memeplotlib core: two-tier template cache,
template resolution, slot layout, shrink-to-fit text sizing, and the
memegen URL text encoding.  Python strings are modelled as `List Char`,
floating-point quantities as `ℚ`, and fallible operations as `Option`.
-/

set_option maxHeartbeats 1000000

namespace Memeplotlib


/-! ## Left-to-right, non-overlapping substring replacement

`replaceL pat rep s` models Python's `s.replace(pat, rep)`: scan `s` from the
left, and at each position either consume a non-overlapping occurrence of
`pat` (emitting `rep`) or copy one character.  A fuel argument makes the
definition structurally recursive, hence kernel-reducible. -/

/-- Boolean prefix test on character lists. -/
def isPre : List Char → List Char → Bool
  | [], _ => true
  | _ :: _, [] => false
  | a :: as, b :: bs => if a = b then isPre as bs else false

/-- Fuel-indexed worker for `replaceL`. -/
def replaceGo (pat rep : List Char) : Nat → List Char → List Char
  | 0, s => s
  | _ + 1, [] => []
  | fuel + 1, c :: rest =>
      if isPre pat (c :: rest) then
        rep ++ replaceGo pat rep fuel (List.drop (pat.length - 1) rest)
      else
        c :: replaceGo pat rep fuel rest

/-- Python `s.replace(pat, rep)` for a non-empty pattern. -/
def replaceL (pat rep s : List Char) : List Char :=
  replaceGo pat rep s.length s

/-! ## memegen URL text encoding (`_text.py`)

`encode_text_for_url` applies the `_ENCODE_MAP` replacements in order;
`decode_text_from_url` protects doubled sequences with a `\x00` sentinel,
decodes `_` and the tilde escapes, then restores the sentinels. -/

/-- The `\x00` sentinel used by `decode_text_from_url`. -/
def sentinel : Char := Char.ofNat 0

/-- The double-quote character. -/
def quoteD : Char := Char.ofNat 34

/-- The single-quote (apostrophe) character. -/
def quoteS : Char := Char.ofNat 39

def sentinelUnderscore : List Char :=
  sentinel :: ['U', 'N', 'D', 'E', 'R', 'S', 'C', 'O', 'R', 'E']

def sentinelDash : List Char := sentinel :: ['D', 'A', 'S', 'H']

def sentinelQuote : List Char := sentinel :: ['Q', 'U', 'O', 'T', 'E']

/-- `encode_text_for_url`: sequential application of `_ENCODE_MAP`
(the innermost replacement is applied first). -/
def encodeTextForUrl (s : List Char) : List Char :=
  replaceL [' '] ['_']
    (replaceL ['\n'] ['~', 'n']
      (replaceL [quoteD] [quoteS, quoteS]
        (replaceL ['>'] ['~', 'g']
          (replaceL ['<'] ['~', 'l']
            (replaceL ['\\'] ['~', 'b']
              (replaceL ['/'] ['~', 's']
                (replaceL ['#'] ['~', 'h']
                  (replaceL ['%'] ['~', 'p']
                    (replaceL ['&'] ['~', 'a']
                      (replaceL ['?'] ['~', 'q']
                        (replaceL ['-'] ['-', '-']
                          (replaceL ['_'] ['_', '_'] s))))))))))))

/-- `decode_text_from_url`: protect doubled sequences, decode `_` and the
tilde escapes, restore the sentinels. -/
def decodeTextFromUrl (s : List Char) : List Char :=
  replaceL sentinelQuote [quoteD]
    (replaceL sentinelDash ['-']
      (replaceL sentinelUnderscore ['_']
        (replaceL ['~', 'n'] ['\n']
          (replaceL ['~', 'g'] ['>']
            (replaceL ['~', 'l'] ['<']
              (replaceL ['~', 'b'] ['\\']
                (replaceL ['~', 's'] ['/']
                  (replaceL ['~', 'h'] ['#']
                    (replaceL ['~', 'p'] ['%']
                      (replaceL ['~', 'a'] ['&']
                        (replaceL ['~', 'q'] ['?']
                          (replaceL ['_'] [' ']
                            (replaceL [quoteS, quoteS] sentinelQuote
                              (replaceL ['-', '-'] sentinelDash
                                (replaceL ['_', '_'] sentinelUnderscore s)))))))))))))))

/-- The per-character action of `encode_text_for_url` (the composite of all
thirteen `_ENCODE_MAP` passes on a single character). -/
def encChar (c : Char) : List Char :=
  if c = '_' then ['_', '_']
  else if c = '-' then ['-', '-']
  else if c = '?' then ['~', 'q']
  else if c = '&' then ['~', 'a']
  else if c = '%' then ['~', 'p']
  else if c = '#' then ['~', 'h']
  else if c = '/' then ['~', 's']
  else if c = '\\' then ['~', 'b']
  else if c = '<' then ['~', 'l']
  else if c = '>' then ['~', 'g']
  else if c = quoteD then [quoteS, quoteS]
  else if c = '\n' then ['~', 'n']
  else if c = ' ' then ['_']
  else [c]

/-- A character that is none of the thirteen `_ENCODE_MAP` specials. -/
def plainChar (c : Char) : Prop :=
  c ≠ '_' ∧ c ≠ '-' ∧ c ≠ '?' ∧ c ≠ '&' ∧ c ≠ '%' ∧ c ≠ '#' ∧ c ≠ '/' ∧
    c ≠ '\\' ∧ c ≠ '<' ∧ c ≠ '>' ∧ c ≠ quoteD ∧ c ≠ '\n' ∧ c ≠ ' '

/-! ### Block-safety machinery for the decode passes

Each decode pass is a global replace over a string that is a concatenation
of per-character blocks.  A block is *safe* for a pattern when no occurrence
of the pattern can start inside it, so the scan copies it unchanged. -/

/-- `safeB p p2 b`: no occurrence of a pattern `p :: p2 :: _` can start
inside the block `b` (either `p` does not occur in `b`, or `b` starts with
`p` but diverges from the pattern at its second character and contains no
further `p`). -/
def safeB (p p2 : Char) : List Char → Bool
  | b1 :: q :: b2 =>
      decide (p ∉ b1 :: q :: b2) ||
        (decide (b1 = p) && decide (q ≠ p2) && decide (p ∉ q :: b2))
  | b => decide (p ∉ b)

/-- Characters on which the encode/decode round trip is not faithful:
the tilde (escape lead-in), the underscore (conflated with encoded spaces),
the single quote (conflated with encoded double quotes), and the sentinel. -/
def badChars : List Char := ['~', '_', quoteS, sentinel]

/-! ### Per-character action of the decode passes -/

/-- Update a block decomposition at a single character. -/
def override (g : Char → List Char) (a : Char) (v : List Char) (c : Char) : List Char :=
  if c = a then v else g c

def decB : Char → List Char := override encChar '-' sentinelDash

def decC : Char → List Char := override decB quoteD sentinelQuote

def decD : Char → List Char := override decC ' ' [' ']

def decQ : Char → List Char := override decD '?' ['?']

def decA : Char → List Char := override decQ '&' ['&']

def decP : Char → List Char := override decA '%' ['%']

def decH : Char → List Char := override decP '#' ['#']

def decS : Char → List Char := override decH '/' ['/']

def decBsl : Char → List Char := override decS '\\' ['\\']

def decL : Char → List Char := override decBsl '<' ['<']

def decG : Char → List Char := override decL '>' ['>']

def decN : Char → List Char := override decG '\n' ['\n']

def decDash : Char → List Char := override decN '-' ['-']

def decFin : Char → List Char := override decDash quoteD [quoteD]

/-! ## The two-tier template cache (`_cache.py`)

`TemplateCache` keeps an in-memory `OrderedDict` LRU (front = least recently
used, `move_to_end` on touch, `popitem(last=False)` on overflow) over an
on-disk file store.  The memory dict is modelled as an association list in
recency order, the images directory as an association list keyed by the
derived cache key, and image decoding as an abstract partial function. -/

/-- First-match association-list lookup (dict lookup; keys are unique in
every reachable state). -/
def lookupKey {α : Type} : List (String × α) → String → Option α
  | [], _ => none
  | (k', v) :: rest, k => if k' = k then some v else lookupKey rest k

/-- Overwrite-or-append association-list update (dict assignment / writing
the file named by the key). -/
def updateKey {α : Type} : List (String × α) → String → α → List (String × α)
  | [], k, v => [(k, v)]
  | (k', v') :: rest, k, v =>
      if k' = k then (k, v) :: rest else (k', v') :: updateKey rest k v

/-- `OrderedDict.move_to_end(key)`: re-insert the entry for `key` at the
most-recently-used end.  Only called when the key is resident. -/
def moveToEnd {α : Type} (mem : List (String × α)) (k : String) : List (String × α) :=
  match lookupKey mem k with
  | none => mem
  | some v => (mem.filter fun e => e.1 != k) ++ [(k, v)]

/-- `TemplateCache._memory_put`: refresh recency if the key is resident
(without updating the stored value), otherwise evict the least-recently-used
entry when at capacity and append.  `none` models the `KeyError` that
`popitem(last=False)` raises on an empty dict (capacity 0). -/
def memoryPut {α : Type} (maxMemory : ℕ) (mem : List (String × α)) (k : String)
    (v : α) : Option (List (String × α)) :=
  if (lookupKey mem k).isSome then
    some (moveToEnd mem k)
  else if maxMemory ≤ mem.length then
    match mem with
    | [] => none
    | _ :: rest => some (rest ++ [(k, v)])
  else
    some (mem ++ [(k, v)])

/-- The mutable state of a `TemplateCache`: the in-memory LRU (recency
order, least-recent first) and the on-disk images directory. -/
structure CacheState (Bytes Image : Type) where
  memory : List (String × Image)
  disk : List (String × Bytes)

/-- `TemplateCache.get_image`: check memory (promoting on hit), then disk
(decoding, promoting into memory, and swallowing any failure as a miss). -/
def getImage {Bytes Image : Type} (decode : Bytes → Option Image)
    (keyOf : String → String) (maxMemory : ℕ) (st : CacheState Bytes Image)
    (url : String) : Option Image × CacheState Bytes Image :=
  let key := keyOf url
  match lookupKey st.memory key with
  | some img => (some img, { st with memory := moveToEnd st.memory key })
  | none =>
    match lookupKey st.disk key with
    | some bytes =>
      match decode bytes with
      | some img =>
        match memoryPut maxMemory st.memory key img with
        | some mem => (some img, { st with memory := mem })
        | none => (none, st)
      | none => (none, st)
    | none => (none, st)

/-- `TemplateCache.set_image`: write the raw bytes to disk, then decode and
populate the memory tier, swallowing any failure. -/
def setImage {Bytes Image : Type} (decode : Bytes → Option Image)
    (keyOf : String → String) (maxMemory : ℕ) (st : CacheState Bytes Image)
    (url : String) (imageBytes : Bytes) : CacheState Bytes Image :=
  let key := keyOf url
  let disk := updateKey st.disk key imageBytes
  match decode imageBytes with
  | some img =>
    match memoryPut maxMemory st.memory key img with
    | some mem => { memory := mem, disk := disk }
    | none => { memory := st.memory, disk := disk }
  | none => { memory := st.memory, disk := disk }

/-- The content of the on-disk `catalog.json` as `get_catalog` observes it,
classified by how `read_text()`, `json.loads` and the subsequent field
accesses behave on it: bytes that are not UTF-8 (`read_text` raises
`UnicodeDecodeError`), text that is not JSON (`json.loads` raises
`JSONDecodeError`), valid JSON that is not an object (`data.get` raises
`AttributeError`), an object whose `timestamp` value is not a number (the
subtraction raises `TypeError`), or a well-formed object with its numeric
`timestamp` (0 when the key is missing) and optional `templates` field. -/
inductive CatalogFile (Entry : Type) where
  | notUtf8 : CatalogFile Entry
  | notJson : CatalogFile Entry
  | jsonNonObject : CatalogFile Entry
  | badTimestamp (templates : Option (List Entry)) : CatalogFile Entry
  | parsed (timestamp : ℚ) (templates : Option (List Entry)) : CatalogFile Entry

/-- An exception escaping `get_catalog` to the caller. -/
inductive CatalogError where
  | unicodeDecodeError : CatalogError
  | attributeError : CatalogError
  | typeError : CatalogError
deriving DecidableEq

/-- `TemplateCache.get_catalog`: `None` when the file is absent.  The `try`
block catches only `json.JSONDecodeError` and `KeyError`, so a JSON parse
failure is returned as a miss, while `UnicodeDecodeError` from
`read_text()`, `AttributeError` from `data.get` on a non-object, and
`TypeError` from the timestamp subtraction propagate to the caller.  A
well-formed object is expired when `now - timestamp > ttl`, otherwise its
`templates` field is returned. -/
def getCatalog {Entry : Type} (file : Option (CatalogFile Entry)) (now ttl : ℚ) :
    Except CatalogError (Option (List Entry)) :=
  match file with
  | none => .ok none
  | some .notUtf8 => .error .unicodeDecodeError
  | some .notJson => .ok none
  | some .jsonNonObject => .error .attributeError
  | some (.badTimestamp _) => .error .typeError
  | some (.parsed ts templates) => if now - ts > ttl then .ok none else .ok templates

/-- `TemplateCache.set_catalog`: write the templates with the current
timestamp. -/
def setCatalog {Entry : Type} (templates : List Entry) (now : ℚ) :
    Option (CatalogFile Entry) :=
  some (.parsed now (some templates))

/-- One operation against the in-memory LRU through the cache interface:
a write (`_memory_put`) or a read hit (`get_image` touching memory). -/
inductive LruOp (Image : Type) where
  | put (k : String) (v : Image) : LruOp Image
  | get (k : String) : LruOp Image

/-- Apply one LRU operation: `put` via `_memory_put` (state unchanged when
the `KeyError` is swallowed), `get` promoting on a hit. -/
def applyOp {Image : Type} (maxMemory : ℕ) (mem : List (String × Image)) :
    LruOp Image → List (String × Image)
  | .put k v => (memoryPut maxMemory mem k v).getD mem
  | .get k => if (lookupKey mem k).isSome then moveToEnd mem k else mem

/-- Run a sequence of LRU operations. -/
def runOps {Image : Type} (maxMemory : ℕ) (mem : List (String × Image)) :
    List (LruOp Image) → List (String × Image)
  | [] => mem
  | op :: ops => runOps maxMemory (applyOp maxMemory mem op) ops

/-! ## Templates and resolution (`_template.py`)

Fractional coordinates are modelled as `ℚ`.  The filesystem (existence and
`expanduser().resolve()`), the memegen API base and the single-item
endpoint are abstract parameters of the resolution function. -/

structure TextPosition where
  anchor_x : ℚ := 0
  anchor_y : ℚ := 0
  scale_x : ℚ := 1
  scale_y : ℚ := 1 / 5
  align : String := "center"
  style : String := "upper"
  angle : ℚ := 0
deriving DecidableEq

/-- The classic top/bottom meme layout. -/
def DEFAULT_TEXT_POSITIONS : List TextPosition :=
  [{ anchor_x := 0, anchor_y := 0, scale_x := 1, scale_y := 1 / 5 },
   { anchor_x := 0, anchor_y := 4 / 5, scale_x := 1, scale_y := 1 / 5 }]

/-- The text positions built by `Template.from_image`: the default layout
truncated to `lines` slots when `lines ≤ 2`, otherwise `lines` equal-height
bands (`slot_height = 1.0 / lines`, `anchor_y = i * slot_height`). -/
def fromImageTextPositions (lines : ℕ) : List TextPosition :=
  if lines ≤ 2 then DEFAULT_TEXT_POSITIONS.take lines
  else
    (List.range lines).map fun i : ℕ =>
      { anchor_x := 0, anchor_y := (i : ℚ) * (1 / (lines : ℚ)), scale_x := 1,
        scale_y := 1 / (lines : ℚ) }

/-- The `lines` field of a memegen API record: missing, unparseable by
`int(...)`, or a parsed integer. -/
inductive LinesField where
  | missing : LinesField
  | invalid : LinesField
  | valid (n : ℤ) : LinesField
deriving DecidableEq

/-- `lines_count` in `Template._from_api_data`:
`max(1, int(data.get("lines", 2)))`, with 2 on a parse failure. -/
def apiLinesCount : LinesField → ℤ
  | .missing => 2
  | .invalid => 2
  | .valid n => max 1 n

/-- The text positions built by `Template._from_api_data`: the full default
layout when `lines_count ≤ 2`, otherwise `lines_count` equal-height bands. -/
def apiTextPositions (linesCount : ℤ) : List TextPosition :=
  if linesCount ≤ 2 then DEFAULT_TEXT_POSITIONS
  else
    (List.range linesCount.toNat).map fun i : ℕ =>
      { anchor_x := 0, anchor_y := (i : ℚ) * (1 / (linesCount : ℚ)), scale_x := 1,
        scale_y := 1 / (linesCount : ℚ) }

/-- The n-band layout as the specification states it: slot `i` at
`anchor_y = i / n` with `scale_y = 1 / n`, full width, in index order. -/
def bandPositions (n : ℕ) : List TextPosition :=
  (List.range n).map fun i : ℕ =>
    { anchor_x := 0, anchor_y := (i : ℚ) / (n : ℚ), scale_x := 1,
      scale_y := 1 / (n : ℚ) }

/-- `IMAGE_EXTENSIONS` from `_config.py`. -/
def IMAGE_EXTENSIONS : List (List Char) :=
  [['.', 'p', 'n', 'g'], ['.', 'j', 'p', 'g'], ['.', 'j', 'p', 'e', 'g'],
   ['.', 'g', 'i', 'f'], ['.', 'b', 'm', 'p'], ['.', 't', 'i', 'f', 'f'],
   ['.', 'w', 'e', 'b', 'p']]

/-- Split a character list at every occurrence of `sep`. -/
def splitOnChar (sep : Char) : List Char → List (List Char)
  | [] => [[]]
  | c :: rest =>
      let r := splitOnChar sep rest
      if c = sep then [] :: r
      else
        match r with
        | [] => [[c]]
        | seg :: segs => (c :: seg) :: segs

/-- `pathlib.PurePath.name` on POSIX: the final path component (empty and
`.` components dropped). -/
def pathName (s : List Char) : List Char :=
  let segs := (splitOnChar '/' s).filter fun seg => seg != [] && seg != ['.']
  (segs.getLast?).getD []

/-- Split a list at its last dot: `some (before, after)` when a dot occurs. -/
def lastSplitDot : List Char → Option (List Char × List Char)
  | [] => none
  | c :: rest =>
      match lastSplitDot rest with
      | some (pre, post) => some (c :: pre, post)
      | none => if c = '.' then some ([], rest) else none

/-- `pathlib.PurePath.suffix`: the extension of the final component,
empty when the last dot is leading or trailing. -/
def pathSuffix (s : List Char) : List Char :=
  match lastSplitDot (pathName s) with
  | some (pre, post) => if pre ≠ [] ∧ post ≠ [] then '.' :: post else []
  | none => []

/-- `pathlib.PurePath.stem`: the final component without its suffix. -/
def pathStem (s : List Char) : List Char :=
  let name := pathName s
  name.take (name.length - (pathSuffix s).length)

def lowerChars (s : List Char) : List Char := s.map Char.toLower

/-- The `_resolve_template` path-branch test: the reference contains a path
separator or its lower-cased suffix is a known image extension. -/
def looksLikePath (template : List Char) : Bool :=
  template.contains '/' || template.contains '\\' ||
    IMAGE_EXTENSIONS.contains (lowerChars (pathSuffix template))

/-- `str.startswith(("http://", "https://"))`. -/
def isUrlRef (template : List Char) : Bool :=
  isPre ['h', 't', 't', 'p', ':', '/', '/'] template ||
    isPre ['h', 't', 't', 'p', 's', ':', '/', '/'] template

/-- One record of the memegen catalog (the fields `_from_api_data` reads;
`blank` is `none` when the key is missing). -/
structure CatalogEntry where
  id : List Char
  name : Option (List Char)
  blank : Option (List Char)
  lines : LinesField
  keywords : List (List Char)
  exampleText : List (List Char)

/-- The resolved template value (the fields set by the constructors). -/
structure TemplateData where
  id : List Char
  name : List Char
  image_url : List Char
  text_positions : List TextPosition
  keywords : List (List Char)
  exampleText : List (List Char)
deriving DecidableEq

/-- `Template._from_api_data`. -/
def fromApiData (apiBase : List Char) (e : CatalogEntry) : TemplateData :=
  { id := e.id
    name := e.name.getD e.id
    image_url := e.blank.getD
      (apiBase ++ ['/', 'i', 'm', 'a', 'g', 'e', 's', '/'] ++ e.id ++
        ['.', 'p', 'n', 'g'])
    text_positions := apiTextPositions (apiLinesCount e.lines)
    keywords := e.keywords
    exampleText := e.exampleText }

/-- `Template.from_image` (for `lines ≥ 1`); `resolvePath` abstracts
`Path(...).expanduser().resolve()`. -/
def fromImage (resolvePath : List Char → List Char) (pathOrUrl : List Char)
    (lines : ℕ) (name : List Char) : TemplateData :=
  let isUrl := isUrlRef pathOrUrl
  let image_url := if isUrl then pathOrUrl else resolvePath pathOrUrl
  let tid := if isUrl then pathStem pathOrUrl else pathStem (resolvePath pathOrUrl)
  { id := tid
    name := if name = [] then tid else name
    image_url := image_url
    text_positions := fromImageTextPositions lines
    keywords := []
    exampleText := [] }

/-- Outcome of `_resolve_template`: a template, a `FileNotFoundError`, or a
`TemplateNotFoundError`. -/
inductive ResolveResult where
  | resolved (t : TemplateData) : ResolveResult
  | fileNotFound : ResolveResult
  | templateNotFound : ResolveResult
deriving DecidableEq

/-- `_resolve_template`: path branch first (fail fast when the file does not
exist), then the URL branch, then catalog lookup with a single-item fetch as
a fallback (`TemplateRegistry.get`). -/
def resolveTemplate (existsFs : List Char → Bool)
    (resolvePath : List Char → List Char) (apiBase : List Char)
    (catalog : List CatalogEntry) (fetchOne : List Char → Option CatalogEntry)
    (template : List Char) : ResolveResult :=
  if looksLikePath template then
    if existsFs template then .resolved (fromImage resolvePath template 2 [])
    else .fileNotFound
  else if isUrlRef template then .resolved (fromImage resolvePath template 2 [])
  else
    match catalog.find? fun e => e.id == template with
    | some e => .resolved (fromApiData apiBase e)
    | none =>
      match fetchOne template with
      | some e => .resolved (fromApiData apiBase e)
      | none => .templateNotFound

/-! ## Shrink-to-fit text sizing (`_rendering.py`)

`_fit_text_to_box` measures the text at the current font size through the
renderer (modelled as an abstract `measure` callback from font size to a
measured width/height) and shrinks until it fits, at most 20 times. -/

/-- One font-size update of `_fit_text_to_box`:
`max(min_fontsize, current * min(box_w / max(text_w, 0.01), box_h / max(text_h, 0.01)) * 0.95)`. -/
def fitStep (boxW boxH minFontsize current textW textH : ℚ) : ℚ :=
  max minFontsize
    (current * min (boxW / max textW (1 / 100)) (boxH / max textH (1 / 100)) *
      (95 / 100))

/-- The measurement loop of `_fit_text_to_box`, with the remaining
iteration budget as fuel (the source runs `for _ in range(20)`). -/
def fitLoop (measure : ℚ → ℚ × ℚ) (boxW boxH minFontsize : ℚ) : ℕ → ℚ → ℚ
  | 0, size => size
  | n + 1, size =>
      let m := measure size
      if m.1 ≤ boxW * (11 / 10) ∧ m.2 ≤ boxH * (11 / 10) then size
      else if size ≤ minFontsize then size
      else
        fitLoop measure boxW boxH minFontsize n
          (fitStep boxW boxH minFontsize size m.1 m.2)

/-- `_fit_text_to_box`: the final font size after at most 20 iterations. -/
def fitTextToBox (measure : ℚ → ℚ × ℚ) (boxW boxH minFontsize size0 : ℚ) : ℚ :=
  fitLoop measure boxW boxH minFontsize 20 size0

/-- Number of loop iterations (measurements) `_fit_text_to_box` executes. -/
def fitIters (measure : ℚ → ℚ × ℚ) (boxW boxH minFontsize : ℚ) : ℕ → ℚ → ℕ
  | 0, _ => 0
  | n + 1, size =>
      let m := measure size
      if m.1 ≤ boxW * (11 / 10) ∧ m.2 ≤ boxH * (11 / 10) then 1
      else if size ≤ minFontsize then 1
      else
        1 + fitIters measure boxW boxH minFontsize n
          (fitStep boxW boxH minFontsize size m.1 m.2)

/-- Modelled from the amended claim's words: a bounded loop of at most 20
iterations; each iteration stops if both measured dimensions are within 1.1
times the target box, or if the current size is at or below the floor;
otherwise the new size is
`max(floor, size * min(box_w / max(w, 0.01), box_h / max(h, 0.01)) * 0.95)`. -/
def specFitLoop (measure : ℚ → ℚ × ℚ) (boxW boxH floor : ℚ) : ℕ → ℚ → ℚ
  | 0, size => size
  | n + 1, size =>
      let m := measure size
      if m.1 ≤ boxW * (11 / 10) ∧ m.2 ≤ boxH * (11 / 10) then size
      else if size ≤ floor then size
      else
        specFitLoop measure boxW boxH floor n
          (max floor
            (size * min (boxW / max m.1 (1 / 100)) (boxH / max m.2 (1 / 100)) *
              (95 / 100)))

/-! ## Theorems -/

theorem replaceGo_succ_cons (pat rep : List Char) (fuel : Nat) (c : Char)
    (rest : List Char) :
    replaceGo pat rep (fuel + 1) (c :: rest) =
      if isPre pat (c :: rest) then
        rep ++ replaceGo pat rep fuel (List.drop (pat.length - 1) rest)
      else
        c :: replaceGo pat rep fuel rest := rfl

theorem drop_length_le (k : Nat) (l : List Char) : (List.drop k l).length ≤ l.length := by
  rw [List.length_drop]
  exact Nat.sub_le _ _

theorem replaceGo_fuel (pat rep : List Char) :
    ∀ f1 f2 s, s.length ≤ f1 → s.length ≤ f2 →
      replaceGo pat rep f1 s = replaceGo pat rep f2 s := by
  intro f1
  induction f1 with
  | zero =>
    intro f2 s h1 _
    have : s = [] := List.eq_nil_of_length_eq_zero (Nat.le_zero.mp h1)
    subst this
    cases f2 <;> rfl
  | succ n ih =>
    intro f2 s h1 h2
    cases s with
    | nil => cases f2 <;> rfl
    | cons c rest =>
      cases f2 with
      | zero => exact absurd h2 (by simp)
      | succ m =>
        rw [replaceGo_succ_cons, replaceGo_succ_cons]
        have hr1 : rest.length ≤ n := Nat.le_of_succ_le_succ (by simpa using h1)
        have hr2 : rest.length ≤ m := Nat.le_of_succ_le_succ (by simpa using h2)
        by_cases hp : isPre pat (c :: rest) = true
        · rw [if_pos hp, if_pos hp]
          congr 1
          exact ih m _ (le_trans (drop_length_le _ _) hr1)
            (le_trans (drop_length_le _ _) hr2)
        · rw [if_neg hp, if_neg hp]
          congr 1
          exact ih m _ hr1 hr2

theorem replaceGo_eq_replaceL (pat rep : List Char) (f : Nat) (s : List Char)
    (h : s.length ≤ f) : replaceGo pat rep f s = replaceL pat rep s :=
  replaceGo_fuel pat rep f s.length s h le_rfl

@[simp] theorem replaceL_nil (pat rep : List Char) : replaceL pat rep [] = [] := by
  simp [replaceL, replaceGo]

theorem isPre_self_append (pat rest : List Char) : isPre pat (pat ++ rest) = true := by
  induction pat with
  | nil => rfl
  | cons a as ih => simpa [isPre] using ih

theorem isPre_head_ne {a b : Char} (as bs : List Char) (h : a ≠ b) :
    isPre (a :: as) (b :: bs) = false := by
  simp [isPre, h]

/-- At an occurrence of the pattern the match is taken, the replacement is
emitted, and scanning resumes after the occurrence. -/
theorem replaceL_cons_match (p : Char) (ps rep rest : List Char) :
    replaceL (p :: ps) rep ((p :: ps) ++ rest) = rep ++ replaceL (p :: ps) rep rest := by
  show replaceGo (p :: ps) rep ((p :: ps) ++ rest).length ((p :: ps) ++ rest) = _
  have hlen : ((p :: ps) ++ rest).length = (ps ++ rest).length + 1 := by simp
  rw [hlen, List.cons_append, replaceGo_succ_cons,
    if_pos (by rw [← List.cons_append]; exact isPre_self_append (p :: ps) rest)]
  congr 1
  have hdrop : List.drop ((p :: ps).length - 1) (ps ++ rest) = rest := by
    have : (p :: ps).length - 1 = ps.length := by simp
    rw [this, List.drop_left]
  rw [hdrop]
  exact replaceGo_eq_replaceL _ _ _ _ (by simp)

/-- A position where the pattern does not match is copied unchanged. -/
theorem replaceL_cons_of_not_pre (pat rep : List Char) (c : Char) (rest : List Char)
    (h : isPre pat (c :: rest) = false) :
    replaceL pat rep (c :: rest) = c :: replaceL pat rep rest := by
  show replaceGo pat rep (c :: rest).length (c :: rest) = _
  have hlen : (c :: rest).length = rest.length + 1 := by simp
  rw [hlen, replaceGo_succ_cons, if_neg (by simp [h])]
  rfl

/-- A character that cannot start the pattern is copied unchanged. -/
theorem replaceL_cons_skip (p : Char) (ps rep : List Char) (c : Char) (rest : List Char)
    (h : c ≠ p) : replaceL (p :: ps) rep (c :: rest) = c :: replaceL (p :: ps) rep rest :=
  replaceL_cons_of_not_pre (p :: ps) rep c rest (isPre_head_ne ps rest (Ne.symm h))

/-- A block containing no occurrence of the pattern's first character is
copied unchanged by the scan. -/
theorem replaceL_skip_block (p : Char) (ps rep b rest : List Char)
    (hb : p ∉ b) :
    replaceL (p :: ps) rep (b ++ rest) = b ++ replaceL (p :: ps) rep rest := by
  induction b with
  | nil => simp
  | cons c b' ih =>
    have hc : c ≠ p := by
      intro h
      exact hb (h ▸ List.mem_cons_self c b')
    have hb' : p ∉ b' := fun h => hb (List.mem_cons_of_mem _ h)
    rw [List.cons_append, replaceL_cons_skip p ps rep c (b' ++ rest) hc, ih hb']
    rfl

/-- A block that starts with the pattern's first character but diverges from
the pattern at its second character is copied unchanged. -/
theorem replaceL_skip_mismatch (p p2 : Char) (ps : List Char) (q : Char)
    (b2 rep rest : List Char) (hq : q ≠ p2) (hp : p ∉ q :: b2) :
    replaceL (p :: p2 :: ps) rep ((p :: q :: b2) ++ rest) =
      (p :: q :: b2) ++ replaceL (p :: p2 :: ps) rep rest := by
  have hpre : isPre (p :: p2 :: ps) (p :: ((q :: b2) ++ rest)) = false := by
    have h1 : isPre (p :: p2 :: ps) (p :: ((q :: b2) ++ rest)) =
        isPre (p2 :: ps) ((q :: b2) ++ rest) := by
      simp [isPre]
    rw [h1, List.cons_append]
    exact isPre_head_ne ps (b2 ++ rest) (Ne.symm hq)
  have step : replaceL (p :: p2 :: ps) rep (p :: ((q :: b2) ++ rest)) =
      p :: replaceL (p :: p2 :: ps) rep ((q :: b2) ++ rest) :=
    replaceL_cons_of_not_pre _ _ _ _ hpre
  calc replaceL (p :: p2 :: ps) rep ((p :: q :: b2) ++ rest)
      = p :: replaceL (p :: p2 :: ps) rep ((q :: b2) ++ rest) := step
    _ = p :: ((q :: b2) ++ replaceL (p :: p2 :: ps) rep rest) := by
        rw [replaceL_skip_block p (p2 :: ps) rep (q :: b2) rest hp]
    _ = (p :: q :: b2) ++ replaceL (p :: p2 :: ps) rep rest := rfl

/-- Replacement of a single-character pattern is a character-wise flat map. -/
theorem replaceL_single (p : Char) (rep : List Char) (s : List Char) :
    replaceL [p] rep s = s.flatMap (fun c => if c = p then rep else [c]) := by
  induction s with
  | nil => simp
  | cons c rest ih =>
    by_cases h : c = p
    · subst h
      rw [show (c :: rest) = [c] ++ rest from rfl, replaceL_cons_match c [] rep rest]
      simp [ih]
    · rw [replaceL_cons_skip p [] rep c rest h]
      simp [ih, h]

/-- Every character is one of the thirteen `_ENCODE_MAP` specials or none
of them. -/
theorem charCasesAll (c : Char) :
    c = '_' ∨ c = '-' ∨ c = '?' ∨ c = '&' ∨ c = '%' ∨ c = '#' ∨ c = '/' ∨
    c = '\\' ∨ c = '<' ∨ c = '>' ∨ c = quoteD ∨ c = '\n' ∨ c = ' ' ∨
    plainChar c := by
  unfold plainChar
  by_cases h1 : c = '_'
  · exact Or.inl h1
  by_cases h2 : c = '-'
  · exact Or.inr (Or.inl h2)
  by_cases h3 : c = '?'
  · exact Or.inr (Or.inr (Or.inl h3))
  by_cases h4 : c = '&'
  · exact Or.inr (Or.inr (Or.inr (Or.inl h4)))
  by_cases h5 : c = '%'
  · exact Or.inr (Or.inr (Or.inr (Or.inr (Or.inl h5))))
  by_cases h6 : c = '#'
  · exact Or.inr (Or.inr (Or.inr (Or.inr (Or.inr (Or.inl h6)))))
  by_cases h7 : c = '/'
  · exact Or.inr (Or.inr (Or.inr (Or.inr (Or.inr (Or.inr (Or.inl h7))))))
  by_cases h8 : c = '\\'
  · exact Or.inr (Or.inr (Or.inr (Or.inr (Or.inr (Or.inr (Or.inr (Or.inl h8)))))))
  by_cases h9 : c = '<'
  · exact Or.inr (Or.inr (Or.inr (Or.inr (Or.inr (Or.inr (Or.inr (Or.inr (Or.inl h9))))))))
  by_cases h10 : c = '>'
  · exact Or.inr (Or.inr (Or.inr (Or.inr (Or.inr (Or.inr (Or.inr (Or.inr (Or.inr
      (Or.inl h10)))))))))
  by_cases h11 : c = quoteD
  · exact Or.inr (Or.inr (Or.inr (Or.inr (Or.inr (Or.inr (Or.inr (Or.inr (Or.inr
      (Or.inr (Or.inl h11))))))))))
  by_cases h12 : c = '\n'
  · exact Or.inr (Or.inr (Or.inr (Or.inr (Or.inr (Or.inr (Or.inr (Or.inr (Or.inr
      (Or.inr (Or.inr (Or.inl h12)))))))))))
  by_cases h13 : c = ' '
  · exact Or.inr (Or.inr (Or.inr (Or.inr (Or.inr (Or.inr (Or.inr (Or.inr (Or.inr
      (Or.inr (Or.inr (Or.inr (Or.inl h13))))))))))))
  · exact Or.inr (Or.inr (Or.inr (Or.inr (Or.inr (Or.inr (Or.inr (Or.inr (Or.inr
      (Or.inr (Or.inr (Or.inr (Or.inr
        ⟨h1, h2, h3, h4, h5, h6, h7, h8, h9, h10, h11, h12, h13⟩))))))))))))

/-- The thirteen encode passes compose to the character-wise map `encChar`. -/
theorem encodeTextForUrl_eq_flatMap (t : List Char) :
    encodeTextForUrl t = t.flatMap encChar := by
  simp only [encodeTextForUrl, replaceL_single, List.flatMap_assoc]
  refine List.flatMap_congr ?_
  intro c _
  rcases charCasesAll c with rfl | rfl | rfl | rfl | rfl | rfl | rfl | rfl | rfl |
    rfl | rfl | rfl | rfl | ⟨h1, h2, h3, h4, h5, h6, h7, h8, h9, h10, h11, h12, h13⟩
  · decide
  · decide
  · decide
  · decide
  · decide
  · decide
  · decide
  · decide
  · decide
  · decide
  · decide
  · decide
  · decide
  · simp [encChar, h1, h2, h3, h4, h5, h6, h7, h8, h9, h10, h11, h12, h13]

/-- Master lemma for a decode pass with a pattern of two or more characters:
if every block either equals the pattern (and is rewritten to `rep`) or is
safe (and kept), the pass maps the block decomposition `g` to `g'`. -/
theorem replaceL_flatMap_two (p p2 : Char) (ps rep : List Char)
    (g g' : Char → List Char) :
    ∀ t : List Char,
      (∀ c ∈ t, (g c = p :: p2 :: ps ∧ g' c = rep) ∨
        (g' c = g c ∧ safeB p p2 (g c) = true)) →
      replaceL (p :: p2 :: ps) rep (t.flatMap g) = t.flatMap g' := by
  intro t
  induction t with
  | nil => intro _; simp
  | cons c t' ih =>
    intro H
    have Ht' : ∀ d ∈ t', (g d = p :: p2 :: ps ∧ g' d = rep) ∨
        (g' d = g d ∧ safeB p p2 (g d) = true) :=
      fun d hd => H d (List.mem_cons_of_mem _ hd)
    rw [List.flatMap_cons, List.flatMap_cons]
    rcases H c (List.mem_cons_self ..) with ⟨h1, h2⟩ | ⟨h1, h2⟩
    · rw [h1, h2, replaceL_cons_match, ih Ht']
    · rw [h1]
      rcases hgc : g c with _ | ⟨b1, bs⟩
      · simpa using ih Ht'
      · rcases bs with _ | ⟨q, b2⟩
        · rw [hgc] at h2
          have hp : p ∉ [b1] := by
            simpa [safeB] using h2
          rw [replaceL_skip_block p (p2 :: ps) rep [b1] _ hp, ih Ht']
        · rw [hgc] at h2
          simp only [safeB, Bool.or_eq_true, Bool.and_eq_true, decide_eq_true_eq] at h2
          rcases h2 with hp | ⟨⟨hb1, hq⟩, hp⟩
          · rw [replaceL_skip_block p (p2 :: ps) rep (b1 :: q :: b2) _ hp, ih Ht']
          · rw [hb1, replaceL_skip_mismatch p p2 ps q b2 rep _ hq hp, ih Ht']

/-- Master lemma for a decode pass with a single-character pattern. -/
theorem replaceL_flatMap_one (p : Char) (rep : List Char)
    (g g' : Char → List Char) :
    ∀ t : List Char,
      (∀ c ∈ t, (g c = [p] ∧ g' c = rep) ∨ (g' c = g c ∧ p ∉ g c)) →
      replaceL [p] rep (t.flatMap g) = t.flatMap g' := by
  intro t
  induction t with
  | nil => intro _; simp
  | cons c t' ih =>
    intro H
    have Ht' : ∀ d ∈ t', (g d = [p] ∧ g' d = rep) ∨ (g' d = g d ∧ p ∉ g d) :=
      fun d hd => H d (List.mem_cons_of_mem _ hd)
    rw [List.flatMap_cons, List.flatMap_cons]
    rcases H c (List.mem_cons_self ..) with ⟨h1, h2⟩ | ⟨h1, h2⟩
    · rw [h1, h2, replaceL_cons_match, ih Ht']
    · rw [h1, replaceL_skip_block p [] rep (g c) _ h2, ih Ht']

theorem encChar_plain (c : Char) (h : plainChar c) : encChar c = [c] := by
  obtain ⟨h1, h2, h3, h4, h5, h6, h7, h8, h9, h10, h11, h12, h13⟩ := h
  simp [encChar, h1, h2, h3, h4, h5, h6, h7, h8, h9, h10, h11, h12, h13]

theorem safeB_singleton (p p2 c : Char) (h : ¬ p = c) : safeB p p2 [c] = true := by
  simp [safeB, h]

theorem isPre_underscore2 (d : Char) (h1 : d ≠ ' ') (h2 : d ≠ '_') (r : List Char) :
    isPre ['_', '_'] ('_' :: (encChar d ++ r)) = false := by
  rcases charCasesAll d with rfl | rfl | rfl | rfl | rfl | rfl | rfl | rfl | rfl |
    rfl | rfl | rfl | rfl | hpl
  · exact absurd rfl h2
  · simp [encChar, isPre]
  · simp [encChar, isPre]
  · simp [encChar, isPre]
  · simp [encChar, isPre]
  · simp [encChar, isPre]
  · simp [encChar, isPre]
  · simp [encChar, isPre]
  · simp [encChar, isPre]
  · simp [encChar, isPre]
  · rw [show encChar quoteD = [quoteS, quoteS] from by decide]
    simp [isPre, show ¬ ('_' = quoteS) from by decide]
  · simp [encChar, isPre]
  · exact absurd rfl h1
  · rw [encChar_plain d hpl]
    simp [isPre, Ne.symm hpl.1]

/-- The `"__"` protection pass leaves the encoded text unchanged: under the
round-trip restrictions every underscore in the encoded text is an encoded
space, and encoded spaces are never adjacent. -/
theorem decode_protect_underscores (t : List Char) (hb : ∀ c ∈ t, c ∉ badChars)
    (hsp : t.Chain' fun a b => ¬(a = ' ' ∧ b = ' ')) :
    replaceL ['_', '_'] sentinelUnderscore (t.flatMap encChar) = t.flatMap encChar := by
  induction t with
  | nil => simp
  | cons c t' ih =>
    have hb' : ∀ d ∈ t', d ∉ badChars := fun d hd => hb d (List.mem_cons_of_mem _ hd)
    have hsp' : t'.Chain' fun a b => ¬(a = ' ' ∧ b = ' ') := hsp.tail
    rw [List.flatMap_cons]
    rcases charCasesAll c with rfl | rfl | rfl | rfl | rfl | rfl | rfl | rfl | rfl |
      rfl | rfl | rfl | rfl | hpl
    · exact absurd (by decide) (hb _ (List.mem_cons_self ..))
    · rw [replaceL_skip_block '_' ['_'] sentinelUnderscore (encChar '-') _ (by decide),
        ih hb' hsp']
    · rw [replaceL_skip_block '_' ['_'] sentinelUnderscore (encChar '?') _ (by decide),
        ih hb' hsp']
    · rw [replaceL_skip_block '_' ['_'] sentinelUnderscore (encChar '&') _ (by decide),
        ih hb' hsp']
    · rw [replaceL_skip_block '_' ['_'] sentinelUnderscore (encChar '%') _ (by decide),
        ih hb' hsp']
    · rw [replaceL_skip_block '_' ['_'] sentinelUnderscore (encChar '#') _ (by decide),
        ih hb' hsp']
    · rw [replaceL_skip_block '_' ['_'] sentinelUnderscore (encChar '/') _ (by decide),
        ih hb' hsp']
    · rw [replaceL_skip_block '_' ['_'] sentinelUnderscore (encChar '\\') _ (by decide),
        ih hb' hsp']
    · rw [replaceL_skip_block '_' ['_'] sentinelUnderscore (encChar '<') _ (by decide),
        ih hb' hsp']
    · rw [replaceL_skip_block '_' ['_'] sentinelUnderscore (encChar '>') _ (by decide),
        ih hb' hsp']
    · rw [replaceL_skip_block '_' ['_'] sentinelUnderscore (encChar quoteD) _ (by decide),
        ih hb' hsp']
    · rw [replaceL_skip_block '_' ['_'] sentinelUnderscore (encChar '\n') _ (by decide),
        ih hb' hsp']
    · -- c = ' ' : the encoded block is a lone underscore
      have he : encChar ' ' = ['_'] := by decide
      rw [he]
      cases t' with
      | nil => decide
      | cons d t'' =>
        have hd1 : d ≠ ' ' := by
          have := (List.chain'_cons.mp hsp).1
          intro h
          exact this ⟨rfl, h⟩
        have hd2 : d ≠ '_' := by
          intro h
          exact hb' d (List.mem_cons_self ..) (by rw [h]; decide)
        simp only [List.flatMap_cons, List.singleton_append]
        rw [replaceL_cons_of_not_pre _ _ _ _
          (isPre_underscore2 d hd1 hd2 (t''.flatMap encChar))]
        have := ih hb' hsp'
        simp only [List.flatMap_cons] at this
        rw [this]
    · rw [replaceL_skip_block '_' ['_'] sentinelUnderscore (encChar c) _
        (by rw [encChar_plain c hpl]; simp [Ne.symm hpl.1]), ih hb' hsp']

/-- On a character that is none of the encode specials, every decode stage
is the singleton block. -/
theorem decStagesPlain (c : Char) (h : plainChar c) :
    decB c = [c] ∧ decC c = [c] ∧ decD c = [c] ∧ decQ c = [c] ∧ decA c = [c] ∧
    decP c = [c] ∧ decH c = [c] ∧ decS c = [c] ∧ decBsl c = [c] ∧ decL c = [c] ∧
    decG c = [c] ∧ decN c = [c] ∧ decDash c = [c] ∧ decFin c = [c] := by
  obtain ⟨h1, h2, h3, h4, h5, h6, h7, h8, h9, h10, h11, h12, h13⟩ := h
  have he : encChar c = [c] := by
    simp [encChar, h1, h2, h3, h4, h5, h6, h7, h8, h9, h10, h11, h12, h13]
  simp [decB, decC, decD, decQ, decA, decP, decH, decS, decBsl, decL, decG, decN,
    decDash, decFin, override, he, h2, h3, h4, h5, h6, h7, h8, h9, h10, h11, h12, h13]

theorem decode_pass_dashes (t : List Char) (hb : ∀ c ∈ t, c ∉ badChars) :
    replaceL ['-', '-'] sentinelDash (t.flatMap encChar) = t.flatMap decB := by
  refine replaceL_flatMap_two '-' '-' [] sentinelDash encChar decB t ?_
  intro c hc
  rcases charCasesAll c with rfl | rfl | rfl | rfl | rfl | rfl | rfl | rfl | rfl |
    rfl | rfl | rfl | rfl | hpl
  · exact absurd (by decide) (hb _ hc)
  · decide
  · decide
  · decide
  · decide
  · decide
  · decide
  · decide
  · decide
  · decide
  · decide
  · decide
  · decide
  · refine Or.inr ⟨by simp [decB, override, hpl.2.1], ?_⟩
    rw [encChar_plain c hpl]
    exact safeB_singleton '-' '-' c (Ne.symm hpl.2.1)

theorem decode_pass_quotes (t : List Char) (hb : ∀ c ∈ t, c ∉ badChars) :
    replaceL [quoteS, quoteS] sentinelQuote (t.flatMap decB) = t.flatMap decC := by
  refine replaceL_flatMap_two quoteS quoteS [] sentinelQuote decB decC t ?_
  intro c hc
  rcases charCasesAll c with rfl | rfl | rfl | rfl | rfl | rfl | rfl | rfl | rfl |
    rfl | rfl | rfl | rfl | hpl
  · exact absurd (by decide) (hb _ hc)
  · decide
  · decide
  · decide
  · decide
  · decide
  · decide
  · decide
  · decide
  · decide
  · decide
  · decide
  · decide
  · have hst := decStagesPlain c hpl
    have hnq : ¬ quoteS = c := fun hh => (hb c hc) (by rw [← hh]; decide)
    refine Or.inr ⟨by simp [decC, override, hpl.2.2.2.2.2.2.2.2.2.2.1], ?_⟩
    rw [hst.1]
    exact safeB_singleton quoteS quoteS c hnq

theorem decode_pass_underscore (t : List Char) (hb : ∀ c ∈ t, c ∉ badChars) :
    replaceL ['_'] [' '] (t.flatMap decC) = t.flatMap decD := by
  refine replaceL_flatMap_one '_' [' '] decC decD t ?_
  intro c hc
  rcases charCasesAll c with rfl | rfl | rfl | rfl | rfl | rfl | rfl | rfl | rfl |
    rfl | rfl | rfl | rfl | hpl
  · exact absurd (by decide) (hb _ hc)
  · decide
  · decide
  · decide
  · decide
  · decide
  · decide
  · decide
  · decide
  · decide
  · decide
  · decide
  · decide
  · have hst := decStagesPlain c hpl
    refine Or.inr ⟨by simp [decD, override, hpl.2.2.2.2.2.2.2.2.2.2.2.2], ?_⟩
    rw [hst.2.1]
    intro hmem
    exact hpl.1 ((List.mem_singleton.mp hmem).symm)

theorem decode_pass_q (t : List Char) (hb : ∀ c ∈ t, c ∉ badChars) :
    replaceL ['~', 'q'] ['?'] (t.flatMap decD) = t.flatMap decQ := by
  refine replaceL_flatMap_two '~' 'q' [] ['?'] decD decQ t ?_
  intro c hc
  rcases charCasesAll c with rfl | rfl | rfl | rfl | rfl | rfl | rfl | rfl | rfl |
    rfl | rfl | rfl | rfl | hpl
  · exact absurd (by decide) (hb _ hc)
  · decide
  · decide
  · decide
  · decide
  · decide
  · decide
  · decide
  · decide
  · decide
  · decide
  · decide
  · decide
  · have hst := decStagesPlain c hpl
    have hnt : ¬ '~' = c := fun hh => (hb c hc) (by rw [← hh]; decide)
    refine Or.inr ⟨by simp [decQ, override, hpl.2.2.1], ?_⟩
    rw [hst.2.2.1]
    exact safeB_singleton '~' 'q' c hnt

theorem decode_pass_a (t : List Char) (hb : ∀ c ∈ t, c ∉ badChars) :
    replaceL ['~', 'a'] ['&'] (t.flatMap decQ) = t.flatMap decA := by
  refine replaceL_flatMap_two '~' 'a' [] ['&'] decQ decA t ?_
  intro c hc
  rcases charCasesAll c with rfl | rfl | rfl | rfl | rfl | rfl | rfl | rfl | rfl |
    rfl | rfl | rfl | rfl | hpl
  · exact absurd (by decide) (hb _ hc)
  · decide
  · decide
  · decide
  · decide
  · decide
  · decide
  · decide
  · decide
  · decide
  · decide
  · decide
  · decide
  · have hst := decStagesPlain c hpl
    have hnt : ¬ '~' = c := fun hh => (hb c hc) (by rw [← hh]; decide)
    refine Or.inr ⟨by simp [decA, override, hpl.2.2.2.1], ?_⟩
    rw [hst.2.2.2.1]
    exact safeB_singleton '~' 'a' c hnt

theorem decode_pass_p (t : List Char) (hb : ∀ c ∈ t, c ∉ badChars) :
    replaceL ['~', 'p'] ['%'] (t.flatMap decA) = t.flatMap decP := by
  refine replaceL_flatMap_two '~' 'p' [] ['%'] decA decP t ?_
  intro c hc
  rcases charCasesAll c with rfl | rfl | rfl | rfl | rfl | rfl | rfl | rfl | rfl |
    rfl | rfl | rfl | rfl | hpl
  · exact absurd (by decide) (hb _ hc)
  · decide
  · decide
  · decide
  · decide
  · decide
  · decide
  · decide
  · decide
  · decide
  · decide
  · decide
  · decide
  · have hst := decStagesPlain c hpl
    have hnt : ¬ '~' = c := fun hh => (hb c hc) (by rw [← hh]; decide)
    refine Or.inr ⟨by simp [decP, override, hpl.2.2.2.2.1], ?_⟩
    rw [hst.2.2.2.2.1]
    exact safeB_singleton '~' 'p' c hnt

theorem decode_pass_h (t : List Char) (hb : ∀ c ∈ t, c ∉ badChars) :
    replaceL ['~', 'h'] ['#'] (t.flatMap decP) = t.flatMap decH := by
  refine replaceL_flatMap_two '~' 'h' [] ['#'] decP decH t ?_
  intro c hc
  rcases charCasesAll c with rfl | rfl | rfl | rfl | rfl | rfl | rfl | rfl | rfl |
    rfl | rfl | rfl | rfl | hpl
  · exact absurd (by decide) (hb _ hc)
  · decide
  · decide
  · decide
  · decide
  · decide
  · decide
  · decide
  · decide
  · decide
  · decide
  · decide
  · decide
  · have hst := decStagesPlain c hpl
    have hnt : ¬ '~' = c := fun hh => (hb c hc) (by rw [← hh]; decide)
    refine Or.inr ⟨by simp [decH, override, hpl.2.2.2.2.2.1], ?_⟩
    rw [hst.2.2.2.2.2.1]
    exact safeB_singleton '~' 'h' c hnt

theorem decode_pass_s (t : List Char) (hb : ∀ c ∈ t, c ∉ badChars) :
    replaceL ['~', 's'] ['/'] (t.flatMap decH) = t.flatMap decS := by
  refine replaceL_flatMap_two '~' 's' [] ['/'] decH decS t ?_
  intro c hc
  rcases charCasesAll c with rfl | rfl | rfl | rfl | rfl | rfl | rfl | rfl | rfl |
    rfl | rfl | rfl | rfl | hpl
  · exact absurd (by decide) (hb _ hc)
  · decide
  · decide
  · decide
  · decide
  · decide
  · decide
  · decide
  · decide
  · decide
  · decide
  · decide
  · decide
  · have hst := decStagesPlain c hpl
    have hnt : ¬ '~' = c := fun hh => (hb c hc) (by rw [← hh]; decide)
    refine Or.inr ⟨by simp [decS, override, hpl.2.2.2.2.2.2.1], ?_⟩
    rw [hst.2.2.2.2.2.2.1]
    exact safeB_singleton '~' 's' c hnt

theorem decode_pass_b (t : List Char) (hb : ∀ c ∈ t, c ∉ badChars) :
    replaceL ['~', 'b'] ['\\'] (t.flatMap decS) = t.flatMap decBsl := by
  refine replaceL_flatMap_two '~' 'b' [] ['\\'] decS decBsl t ?_
  intro c hc
  rcases charCasesAll c with rfl | rfl | rfl | rfl | rfl | rfl | rfl | rfl | rfl |
    rfl | rfl | rfl | rfl | hpl
  · exact absurd (by decide) (hb _ hc)
  · decide
  · decide
  · decide
  · decide
  · decide
  · decide
  · decide
  · decide
  · decide
  · decide
  · decide
  · decide
  · have hst := decStagesPlain c hpl
    have hnt : ¬ '~' = c := fun hh => (hb c hc) (by rw [← hh]; decide)
    refine Or.inr ⟨by simp [decBsl, override, hpl.2.2.2.2.2.2.2.1], ?_⟩
    rw [hst.2.2.2.2.2.2.2.1]
    exact safeB_singleton '~' 'b' c hnt

theorem decode_pass_l (t : List Char) (hb : ∀ c ∈ t, c ∉ badChars) :
    replaceL ['~', 'l'] ['<'] (t.flatMap decBsl) = t.flatMap decL := by
  refine replaceL_flatMap_two '~' 'l' [] ['<'] decBsl decL t ?_
  intro c hc
  rcases charCasesAll c with rfl | rfl | rfl | rfl | rfl | rfl | rfl | rfl | rfl |
    rfl | rfl | rfl | rfl | hpl
  · exact absurd (by decide) (hb _ hc)
  · decide
  · decide
  · decide
  · decide
  · decide
  · decide
  · decide
  · decide
  · decide
  · decide
  · decide
  · decide
  · have hst := decStagesPlain c hpl
    have hnt : ¬ '~' = c := fun hh => (hb c hc) (by rw [← hh]; decide)
    refine Or.inr ⟨by simp [decL, override, hpl.2.2.2.2.2.2.2.2.1], ?_⟩
    rw [hst.2.2.2.2.2.2.2.2.1]
    exact safeB_singleton '~' 'l' c hnt

theorem decode_pass_g (t : List Char) (hb : ∀ c ∈ t, c ∉ badChars) :
    replaceL ['~', 'g'] ['>'] (t.flatMap decL) = t.flatMap decG := by
  refine replaceL_flatMap_two '~' 'g' [] ['>'] decL decG t ?_
  intro c hc
  rcases charCasesAll c with rfl | rfl | rfl | rfl | rfl | rfl | rfl | rfl | rfl |
    rfl | rfl | rfl | rfl | hpl
  · exact absurd (by decide) (hb _ hc)
  · decide
  · decide
  · decide
  · decide
  · decide
  · decide
  · decide
  · decide
  · decide
  · decide
  · decide
  · decide
  · have hst := decStagesPlain c hpl
    have hnt : ¬ '~' = c := fun hh => (hb c hc) (by rw [← hh]; decide)
    refine Or.inr ⟨by simp [decG, override, hpl.2.2.2.2.2.2.2.2.2.1], ?_⟩
    rw [hst.2.2.2.2.2.2.2.2.2.1]
    exact safeB_singleton '~' 'g' c hnt

theorem decode_pass_n (t : List Char) (hb : ∀ c ∈ t, c ∉ badChars) :
    replaceL ['~', 'n'] ['\n'] (t.flatMap decG) = t.flatMap decN := by
  refine replaceL_flatMap_two '~' 'n' [] ['\n'] decG decN t ?_
  intro c hc
  rcases charCasesAll c with rfl | rfl | rfl | rfl | rfl | rfl | rfl | rfl | rfl |
    rfl | rfl | rfl | rfl | hpl
  · exact absurd (by decide) (hb _ hc)
  · decide
  · decide
  · decide
  · decide
  · decide
  · decide
  · decide
  · decide
  · decide
  · decide
  · decide
  · decide
  · have hst := decStagesPlain c hpl
    have hnt : ¬ '~' = c := fun hh => (hb c hc) (by rw [← hh]; decide)
    refine Or.inr ⟨by simp [decN, override, hpl.2.2.2.2.2.2.2.2.2.2.2.1], ?_⟩
    rw [hst.2.2.2.2.2.2.2.2.2.2.1]
    exact safeB_singleton '~' 'n' c hnt

theorem decode_restore_underscore (t : List Char) (hb : ∀ c ∈ t, c ∉ badChars) :
    replaceL sentinelUnderscore ['_'] (t.flatMap decN) = t.flatMap decN := by
  refine replaceL_flatMap_two sentinel 'U' ['N', 'D', 'E', 'R', 'S', 'C', 'O', 'R', 'E']
    ['_'] decN decN t ?_
  intro c hc
  rcases charCasesAll c with rfl | rfl | rfl | rfl | rfl | rfl | rfl | rfl | rfl |
    rfl | rfl | rfl | rfl | hpl
  · exact absurd (by decide) (hb _ hc)
  · decide
  · decide
  · decide
  · decide
  · decide
  · decide
  · decide
  · decide
  · decide
  · decide
  · decide
  · decide
  · have hst := decStagesPlain c hpl
    have hns : ¬ sentinel = c := fun hh => (hb c hc) (by rw [← hh]; decide)
    refine Or.inr ⟨rfl, ?_⟩
    rw [hst.2.2.2.2.2.2.2.2.2.2.2.1]
    exact safeB_singleton sentinel 'U' c hns

theorem decode_restore_dash (t : List Char) (hb : ∀ c ∈ t, c ∉ badChars) :
    replaceL sentinelDash ['-'] (t.flatMap decN) = t.flatMap decDash := by
  refine replaceL_flatMap_two sentinel 'D' ['A', 'S', 'H'] ['-'] decN decDash t ?_
  intro c hc
  rcases charCasesAll c with rfl | rfl | rfl | rfl | rfl | rfl | rfl | rfl | rfl |
    rfl | rfl | rfl | rfl | hpl
  · exact absurd (by decide) (hb _ hc)
  · decide
  · decide
  · decide
  · decide
  · decide
  · decide
  · decide
  · decide
  · decide
  · decide
  · decide
  · decide
  · have hst := decStagesPlain c hpl
    have hns : ¬ sentinel = c := fun hh => (hb c hc) (by rw [← hh]; decide)
    refine Or.inr ⟨by simp [decDash, override, hpl.2.1], ?_⟩
    rw [hst.2.2.2.2.2.2.2.2.2.2.2.1]
    exact safeB_singleton sentinel 'D' c hns

theorem decode_restore_quote (t : List Char) (hb : ∀ c ∈ t, c ∉ badChars) :
    replaceL sentinelQuote [quoteD] (t.flatMap decDash) = t.flatMap decFin := by
  refine replaceL_flatMap_two sentinel 'Q' ['U', 'O', 'T', 'E'] [quoteD] decDash decFin t ?_
  intro c hc
  rcases charCasesAll c with rfl | rfl | rfl | rfl | rfl | rfl | rfl | rfl | rfl |
    rfl | rfl | rfl | rfl | hpl
  · exact absurd (by decide) (hb _ hc)
  · decide
  · decide
  · decide
  · decide
  · decide
  · decide
  · decide
  · decide
  · decide
  · decide
  · decide
  · decide
  · have hst := decStagesPlain c hpl
    have hns : ¬ sentinel = c := fun hh => (hb c hc) (by rw [← hh]; decide)
    refine Or.inr ⟨by simp [decFin, override, hpl.2.2.2.2.2.2.2.2.2.2.1], ?_⟩
    rw [hst.2.2.2.2.2.2.2.2.2.2.2.2.1]
    exact safeB_singleton sentinel 'Q' c hns

/-- The decode pipeline inverts the encode pipeline on strings containing
none of `~`, `_`, the single quote, or the `\x00` sentinel, and no two
adjacent spaces. -/
theorem decode_encode_of_ok (t : List Char) (hb : ∀ c ∈ t, c ∉ badChars)
    (hsp : t.Chain' fun a b => ¬(a = ' ' ∧ b = ' ')) :
    decodeTextFromUrl (encodeTextForUrl t) = t := by
  rw [encodeTextForUrl_eq_flatMap]
  show replaceL sentinelQuote [quoteD] _ = t
  rw [decode_protect_underscores t hb hsp, decode_pass_dashes t hb,
    decode_pass_quotes t hb, decode_pass_underscore t hb, decode_pass_q t hb,
    decode_pass_a t hb, decode_pass_p t hb, decode_pass_h t hb, decode_pass_s t hb,
    decode_pass_b t hb, decode_pass_l t hb, decode_pass_g t hb, decode_pass_n t hb,
    decode_restore_underscore t hb, decode_restore_dash t hb,
    decode_restore_quote t hb]
  have hfin : ∀ c ∈ t, decFin c = [c] := by
    intro c hc
    rcases charCasesAll c with rfl | rfl | rfl | rfl | rfl | rfl | rfl | rfl | rfl |
      rfl | rfl | rfl | rfl | hpl
    · exact absurd (by decide) (hb _ hc)
    · decide
    · decide
    · decide
    · decide
    · decide
    · decide
    · decide
    · decide
    · decide
    · decide
    · decide
    · decide
    · exact (decStagesPlain c hpl).2.2.2.2.2.2.2.2.2.2.2.2.2
  rw [List.flatMap_congr hfin]
  simp

theorem lookupKey_cons {α : Type} (k' : String) (v : α) (rest : List (String × α))
    (k : String) :
    lookupKey ((k', v) :: rest) k = if k' = k then some v else lookupKey rest k := rfl

theorem filter_length_lt_of_mem {α : Type} (mem : List (String × α)) (k : String)
    (h : (lookupKey mem k).isSome) :
    (mem.filter fun e => e.1 != k).length < mem.length := by
  induction mem with
  | nil => simp [lookupKey] at h
  | cons e rest ih =>
    obtain ⟨k', v⟩ := e
    by_cases hk : k' = k
    · subst hk
      have : ((k', v) :: rest).filter (fun e => e.1 != k') =
          rest.filter fun e => e.1 != k' := by
        simp
      rw [this]
      exact Nat.lt_succ_of_le (List.length_filter_le _ _)
    · rw [lookupKey_cons, if_neg hk] at h
      have : ((k', v) :: rest).filter (fun e => e.1 != k) =
          (k', v) :: rest.filter fun e => e.1 != k := by
        simp [hk]
      rw [this]
      simpa using ih h

theorem moveToEnd_length_le {α : Type} (mem : List (String × α)) (k : String) :
    (moveToEnd mem k).length ≤ mem.length := by
  unfold moveToEnd
  cases h : lookupKey mem k with
  | none => exact le_rfl
  | some v =>
    have := filter_length_lt_of_mem mem k (by rw [h]; rfl)
    simpa using this

theorem memoryPut_length_le {α : Type} (maxMemory : ℕ) (mem : List (String × α))
    (k : String) (v : α) (mem' : List (String × α))
    (hput : memoryPut maxMemory mem k v = some mem')
    (hlen : mem.length ≤ maxMemory) : mem'.length ≤ maxMemory := by
  unfold memoryPut at hput
  by_cases hk : (lookupKey mem k).isSome
  · rw [if_pos hk] at hput
    have := moveToEnd_length_le mem k
    obtain rfl : moveToEnd mem k = mem' := by injection hput
    omega
  · rw [if_neg hk] at hput
    by_cases hcap : maxMemory ≤ mem.length
    · rw [if_pos hcap] at hput
      cases mem with
      | nil => exact absurd hput (by simp)
      | cons e rest =>
        obtain rfl : rest ++ [(k, v)] = mem' := by injection hput
        simp at hlen ⊢
        omega
    · rw [if_neg hcap] at hput
      obtain rfl : mem ++ [(k, v)] = mem' := by injection hput
      simp
      omega

theorem applyOp_length_le {Image : Type} (maxMemory : ℕ)
    (mem : List (String × Image)) (op : LruOp Image)
    (hlen : mem.length ≤ maxMemory) :
    (applyOp maxMemory mem op).length ≤ maxMemory := by
  cases op with
  | put k v =>
    show ((memoryPut maxMemory mem k v).getD mem).length ≤ maxMemory
    cases hput : memoryPut maxMemory mem k v with
    | none => simpa using hlen
    | some mem' => simpa using memoryPut_length_le maxMemory mem k v mem' hput hlen
  | get k =>
    show (if (lookupKey mem k).isSome = true then moveToEnd mem k else mem).length ≤
      maxMemory
    by_cases hk : (lookupKey mem k).isSome
    · rw [if_pos hk]
      exact le_trans (moveToEnd_length_le mem k) hlen
    · rw [if_neg hk]
      exact hlen

theorem runOps_length_le {Image : Type} (maxMemory : ℕ) :
    ∀ (ops : List (LruOp Image)) (mem : List (String × Image)),
      mem.length ≤ maxMemory → (runOps maxMemory mem ops).length ≤ maxMemory := by
  intro ops
  induction ops with
  | nil => intro mem h; exact h
  | cons op ops ih =>
    intro mem h
    exact ih _ (applyOp_length_le maxMemory mem op h)

theorem lookupKey_append_of_none {α : Type} (l1 l2 : List (String × α)) (k : String)
    (h : lookupKey l1 k = none) : lookupKey (l1 ++ l2) k = lookupKey l2 k := by
  induction l1 with
  | nil => rfl
  | cons e rest ih =>
    obtain ⟨k', v⟩ := e
    rw [lookupKey_cons] at h
    by_cases hk : k' = k
    · rw [if_pos hk] at h
      exact absurd h (by simp)
    · rw [if_neg hk] at h
      rw [List.cons_append, lookupKey_cons, if_neg hk]
      exact ih h

theorem lookupKey_updateKey_self {α : Type} (l : List (String × α)) (k : String)
    (v : α) : lookupKey (updateKey l k v) k = some v := by
  induction l with
  | nil => simp [updateKey, lookupKey]
  | cons e rest ih =>
    obtain ⟨k', v'⟩ := e
    by_cases hk : k' = k
    · simp [updateKey, hk, lookupKey]
    · simp [updateKey, hk, lookupKey_cons, ih]

theorem fitLoop_succ (measure : ℚ → ℚ × ℚ) (boxW boxH minFontsize : ℚ) (n : ℕ)
    (size : ℚ) :
    fitLoop measure boxW boxH minFontsize (n + 1) size =
      if (measure size).1 ≤ boxW * (11 / 10) ∧ (measure size).2 ≤ boxH * (11 / 10)
      then size
      else if size ≤ minFontsize then size
      else
        fitLoop measure boxW boxH minFontsize n
          (fitStep boxW boxH minFontsize size (measure size).1 (measure size).2) := rfl

theorem fitIters_succ (measure : ℚ → ℚ × ℚ) (boxW boxH minFontsize : ℚ) (n : ℕ)
    (size : ℚ) :
    fitIters measure boxW boxH minFontsize (n + 1) size =
      if (measure size).1 ≤ boxW * (11 / 10) ∧ (measure size).2 ≤ boxH * (11 / 10)
      then 1
      else if size ≤ minFontsize then 1
      else
        1 + fitIters measure boxW boxH minFontsize n
          (fitStep boxW boxH minFontsize size (measure size).1 (measure size).2) := rfl

theorem specFitLoop_succ (measure : ℚ → ℚ × ℚ) (boxW boxH floor : ℚ) (n : ℕ)
    (size : ℚ) :
    specFitLoop measure boxW boxH floor (n + 1) size =
      if (measure size).1 ≤ boxW * (11 / 10) ∧ (measure size).2 ≤ boxH * (11 / 10)
      then size
      else if size ≤ floor then size
      else
        specFitLoop measure boxW boxH floor n
          (max floor
            (size *
              min (boxW / max (measure size).1 (1 / 100))
                (boxH / max (measure size).2 (1 / 100)) *
              (95 / 100))) := rfl

theorem fitIters_le (measure : ℚ → ℚ × ℚ) (boxW boxH minFontsize : ℚ) :
    ∀ (n : ℕ) (size : ℚ), fitIters measure boxW boxH minFontsize n size ≤ n := by
  intro n
  induction n with
  | zero => intro size; exact le_rfl
  | succ n ih =>
    intro size
    rw [fitIters_succ]
    split
    · omega
    · split
      · omega
      · have := ih (fitStep boxW boxH minFontsize size (measure size).1 (measure size).2)
        omega

theorem fitLoop_eq_specFitLoop (measure : ℚ → ℚ × ℚ) (boxW boxH minFontsize : ℚ) :
    ∀ (n : ℕ) (size : ℚ),
      fitLoop measure boxW boxH minFontsize n size =
        specFitLoop measure boxW boxH minFontsize n size := by
  intro n
  induction n with
  | zero => intro size; rfl
  | succ n ih =>
    intro size
    rw [fitLoop_succ, specFitLoop_succ]
    split
    · rfl
    · split
      · rfl
      · rw [ih]
        rfl

theorem lookupKey_cons_none {α : Type} (k' : String) (v : α) (rest : List (String × α))
    (k : String) (h : lookupKey ((k', v) :: rest) k = none) : lookupKey rest k = none := by
  rw [lookupKey_cons] at h
  by_cases hk : k' = k
  · rw [if_pos hk] at h
    exact absurd h (by simp)
  · rwa [if_neg hk] at h

theorem lookupKey_snoc_self {α : Type} (l : List (String × α)) (k : String) (v : α)
    (h : lookupKey l k = none) : lookupKey (l ++ [(k, v)]) k = some v := by
  rw [lookupKey_append_of_none l _ k h, lookupKey_cons, if_pos rfl]

/-- `_memory_put` on a fresh key with positive capacity succeeds and leaves
the key resident (at the most-recently-used end). -/
theorem memoryPut_fresh {α : Type} (maxMemory : ℕ) (mem : List (String × α))
    (k : String) (v : α) (hmiss : lookupKey mem k = none) (hpos : 0 < maxMemory) :
    ∃ mem', memoryPut maxMemory mem k v = some mem' ∧
      lookupKey mem' k = some v ∧ mem'.getLast? = some (k, v) := by
  unfold memoryPut
  rw [hmiss]
  simp only [Option.isSome_none, Bool.false_eq_true, if_false]
  by_cases hcap : maxMemory ≤ mem.length
  · rw [if_pos hcap]
    cases mem with
    | nil =>
      simp at hcap
      omega
    | cons e rest =>
      obtain ⟨k', v'⟩ := e
      refine ⟨rest ++ [(k, v)], rfl, ?_, by simp⟩
      exact lookupKey_snoc_self rest k v (lookupKey_cons_none k' v' rest k hmiss)
  · rw [if_neg hcap]
    exact ⟨mem ++ [(k, v)], rfl, lookupKey_snoc_self mem k v hmiss, by simp⟩

/-! ## Claim theorems -/

/-- C2 (counterexample): the claim defines the boundary case `X == T` as
expired (absent), but `get_catalog` only expires when `now - timestamp > ttl`
is strict, so a catalog exactly `ttl` seconds old (here 86,400) is returned,
not absent. -/
theorem getCatalog_boundary_fresh_counterexample :
    getCatalog (setCatalog ([0] : List ℕ) (200000 - 86400)) 200000 86400 =
      .ok (some [0]) := by
  show (if (200000 : ℚ) - (200000 - 86400) > 86400 then Except.ok none
    else Except.ok (some [0])) = Except.ok (some [0])
  rw [if_neg (by norm_num)]

/-- C2 (amended): a catalog written with timestamp `now - X` is returned by
`get_catalog(ttl=T)` iff `X ≤ T`, with the boundary `X == T` treated as
fresh (returned); a catalog 100,000 seconds old queried with `ttl=86400`
returns absent. -/
theorem getCatalog_ttl_correct (Entry : Type) (templates : List Entry)
    (now X T : ℚ) :
    (getCatalog (setCatalog templates (now - X)) now T = .ok (some templates) ↔
      X ≤ T) ∧
    getCatalog (setCatalog templates (now - 100000)) now 86400 = .ok none := by
  constructor
  · show (if now - (now - X) > T then Except.ok none
      else Except.ok (some templates)) = Except.ok (some templates) ↔ X ≤ T
    rw [show now - (now - X) = X from by ring]
    by_cases hT : X > T
    · rw [if_pos hT]
      constructor
      · intro h
        exact absurd h (by simp)
      · intro h
        exact absurd hT (not_lt.mpr h)
    · rw [if_neg hT]
      simp [le_of_not_lt hT]
  · show (if now - (now - 100000) > 86400 then Except.ok none
      else Except.ok (some templates)) = Except.ok none
    rw [show now - (now - 100000) = (100000 : ℚ) from by ring, if_pos (by norm_num)]

/-- C3 (counterexample): with the key already resident in memory,
`set_image` writes the new bytes to disk but `_memory_put` only refreshes
recency without replacing the stored buffer, so the following `get_image`
returns the old decoded buffer, not the decode of the new bytes. -/
theorem setImage_stale_memory_counterexample :
    (getImage (fun b : ℕ => some b) (fun s => s) 5
        (setImage (fun b : ℕ => some b) (fun s => s) 5
          ⟨[("k", 1)], []⟩ "k" 2) "k").1 = some 1 ∧
    (some 1 : Option ℕ) ≠ (fun b : ℕ => some b) 2 := by
  constructor
  · rfl
  · decide

/-- C3 (amended): when the derived key is not already resident in the
memory tier (and the capacity is positive), `set_image(url, bytes)` updates
both tiers — the disk tier holds `bytes` and the memory tier holds the
decode of `bytes` — and an immediately following `get_image(url)` returns
exactly the decode of `bytes`. -/
theorem setImage_getImage_roundtrip_fresh (Bytes Image : Type)
    (decode : Bytes → Option Image) (keyOf : String → String) (maxMemory : ℕ)
    (st : CacheState Bytes Image) (url : String) (imageBytes : Bytes) (img : Image)
    (hmiss : lookupKey st.memory (keyOf url) = none)
    (hdec : decode imageBytes = some img) (hpos : 0 < maxMemory) :
    (getImage decode keyOf maxMemory
        (setImage decode keyOf maxMemory st url imageBytes) url).1 = some img ∧
    lookupKey (setImage decode keyOf maxMemory st url imageBytes).disk (keyOf url) =
      some imageBytes ∧
    lookupKey (setImage decode keyOf maxMemory st url imageBytes).memory (keyOf url) =
      some img := by
  obtain ⟨mem', hput, hlook, hlast⟩ :=
    memoryPut_fresh maxMemory st.memory (keyOf url) img hmiss hpos
  have hset : setImage decode keyOf maxMemory st url imageBytes =
      { memory := mem', disk := updateKey st.disk (keyOf url) imageBytes } := by
    simp only [setImage, hdec, hput]
  rw [hset]
  refine ⟨?_, lookupKey_updateKey_self st.disk (keyOf url) imageBytes, hlook⟩
  simp only [getImage, hlook]

/-- C3 (witness). -/
theorem setImage_getImage_roundtrip_fresh_witness :
    lookupKey (CacheState.memory (⟨[], []⟩ : CacheState ℕ ℕ)) "k" = none ∧
    (0 : ℕ) < 5 ∧
    (getImage (fun b : ℕ => some b) (fun s => s) 5
        (setImage (fun b : ℕ => some b) (fun s => s) 5 ⟨[], []⟩ "k" 7) "k").1 =
      some 7 :=
  ⟨by decide, by decide,
    (setImage_getImage_roundtrip_fresh ℕ ℕ (fun b => some b) (fun s => s) 5
      ⟨[], []⟩ "k" 7 7 (by decide) rfl (by decide)).1⟩

/-- C9 (counterexample): the claim says every parse failure of cached
catalog data makes `get_catalog` return absent rather than raising, but the
`try` block catches only `json.JSONDecodeError` and `KeyError`: a cached
`catalog.json` holding valid JSON that is not an object (for example the
JSON text `[1, 2]`) raises `AttributeError` from `data.get("timestamp", 0)`
to the caller, not a `None` miss. -/
theorem catalog_parse_failure_raises_counterexample :
    getCatalog (some (CatalogFile.jsonNonObject : CatalogFile ℕ)) 0 86400 =
      .error .attributeError ∧
    getCatalog (some (CatalogFile.jsonNonObject : CatalogFile ℕ)) 0 86400 ≠
      .ok none := by
  constructor
  · rfl
  · intro h
    exact Except.noConfusion h

/-- C9 (amended): a decode failure of a cached image on disk (memory miss,
disk hit, decoder fails: the bare `except` catches everything) makes
`get_image` return `None` with the state unchanged, and a `catalog.json`
that fails JSON parsing makes `get_catalog` return `None`; but a cached
catalog holding valid JSON that is not an object, an object with a
non-numeric `timestamp`, or bytes that are not UTF-8 raises to the caller
(`AttributeError`, `TypeError`, `UnicodeDecodeError` respectively). -/
theorem decode_failure_handling (Bytes Image Entry : Type)
    (decode : Bytes → Option Image) (keyOf : String → String) (maxMemory : ℕ)
    (st : CacheState Bytes Image) (url : String) (imageBytes : Bytes)
    (now ttl : ℚ) (templates : Option (List Entry))
    (hmiss : lookupKey st.memory (keyOf url) = none)
    (hdisk : lookupKey st.disk (keyOf url) = some imageBytes)
    (hdec : decode imageBytes = none) :
    getImage decode keyOf maxMemory st url = (none, st) ∧
    getCatalog (some (CatalogFile.notJson : CatalogFile Entry)) now ttl =
      .ok none ∧
    getCatalog (some (CatalogFile.jsonNonObject : CatalogFile Entry)) now ttl =
      .error .attributeError ∧
    getCatalog (some (CatalogFile.badTimestamp templates)) now ttl =
      .error .typeError ∧
    getCatalog (some (CatalogFile.notUtf8 : CatalogFile Entry)) now ttl =
      .error .unicodeDecodeError := by
  refine ⟨?_, rfl, rfl, rfl, rfl⟩
  simp only [getImage, hmiss, hdisk, hdec]

/-- C9 (witness). -/
theorem decode_failure_handling_witness :
    lookupKey (CacheState.memory (⟨[], [("k", 3)]⟩ : CacheState ℕ ℕ)) "k" = none ∧
    lookupKey (CacheState.disk (⟨[], [("k", 3)]⟩ : CacheState ℕ ℕ)) "k" = some 3 ∧
    getImage (fun _ : ℕ => (none : Option ℕ)) (fun s => s) 5 ⟨[], [("k", 3)]⟩ "k" =
      (none, ⟨[], [("k", 3)]⟩) ∧
    getCatalog (some (CatalogFile.notJson : CatalogFile ℕ)) 0 86400 = .ok none :=
  ⟨by decide, by decide,
    (decode_failure_handling ℕ ℕ ℕ (fun _ => none) (fun s => s) 5
      ⟨[], [("k", 3)]⟩ "k" 3 0 86400 none (by decide) (by decide) rfl).1,
    (decode_failure_handling ℕ ℕ ℕ (fun _ => none) (fun s => s) 5
      ⟨[], [("k", 3)]⟩ "k" 3 0 86400 none (by decide) (by decide) rfl).2.1⟩

/-- C4: over every sequence of put and get operations the in-memory LRU
holds at most `max_entries` entries; an insert of a fresh key at capacity
evicts exactly the front (least-recently-touched) entry and appends the new
one; and a get on a hit promotes the entry to the most-recently-used end. -/
theorem lru_bound_and_eviction (Image : Type) (maxMemory : ℕ)
    (hpos : 0 < maxMemory) :
    (∀ (ops : List (LruOp Image)) (mem0 : List (String × Image)),
      mem0.length ≤ maxMemory → (runOps maxMemory mem0 ops).length ≤ maxMemory) ∧
    (∀ (mem : List (String × Image)) (k : String) (v : Image),
      lookupKey mem k = none → mem.length = maxMemory →
      memoryPut maxMemory mem k v = some (mem.tail ++ [(k, v)])) ∧
    (∀ (mem : List (String × Image)) (k : String) (v : Image),
      lookupKey mem k = some v →
      applyOp maxMemory mem (.get k) =
        (mem.filter fun e => e.1 != k) ++ [(k, v)]) := by
  refine ⟨fun ops mem0 h => runOps_length_le maxMemory ops mem0 h, ?_, ?_⟩
  · intro mem k v hmiss hlen
    unfold memoryPut
    rw [hmiss]
    simp only [Option.isSome_none, Bool.false_eq_true, if_false,
      if_pos (le_of_eq hlen.symm)]
    cases mem with
    | nil =>
      rw [List.length_nil] at hlen
      omega
    | cons e rest => rfl
  · intro mem k v hhit
    show (if (lookupKey mem k).isSome = true then moveToEnd mem k else mem) = _
    rw [if_pos (by rw [hhit]; rfl)]
    unfold moveToEnd
    rw [hhit]

/-- C4 (witness). -/
theorem lru_bound_and_eviction_witness :
    (0 : ℕ) < 2 ∧
    (runOps 2 ([] : List (String × ℕ))
      [.put "a" 1, .put "b" 2, .get "a", .put "c" 3]).length ≤ 2 ∧
    memoryPut 2 [("a", 1), ("b", 2)] "c" (3 : ℕ) =
      some ([("a", 1), ("b", 2)].tail ++ [("c", 3)]) ∧
    applyOp 2 [("a", 1), ("b", 2)] (LruOp.get "a") =
      ([("a", (1 : ℕ)), ("b", 2)].filter fun e => e.1 != "a") ++ [("a", 1)] := by
  have h := lru_bound_and_eviction ℕ 2 (by decide)
  exact ⟨by decide, h.1 [.put "a" 1, .put "b" 2, .get "a", .put "c" 3] [] (by decide),
    h.2.1 [("a", 1), ("b", 2)] "c" 3 (by decide) (by decide),
    h.2.2 [("a", 1), ("b", 2)] "a" 1 (by decide)⟩

/-- C5: an image resident on disk but absent from memory is decoded,
promoted into the memory tier, and returned by `get_image`; the disk tier is
not modified; and a following `get_image` for the same url is served from
the memory tier regardless of the disk state (even with the entry deleted). -/
theorem disk_hit_promotion (Bytes Image : Type) (decode : Bytes → Option Image)
    (keyOf : String → String) (maxMemory : ℕ) (st : CacheState Bytes Image)
    (url : String) (imageBytes : Bytes) (img : Image)
    (hmiss : lookupKey st.memory (keyOf url) = none)
    (hdisk : lookupKey st.disk (keyOf url) = some imageBytes)
    (hdec : decode imageBytes = some img) (hpos : 0 < maxMemory) :
    (getImage decode keyOf maxMemory st url).1 = some img ∧
    lookupKey (getImage decode keyOf maxMemory st url).2.memory (keyOf url) =
      some img ∧
    (getImage decode keyOf maxMemory st url).2.disk = st.disk ∧
    ∀ disk2 : List (String × Bytes),
      (getImage decode keyOf maxMemory
        ⟨(getImage decode keyOf maxMemory st url).2.memory, disk2⟩ url).1 =
        some img := by
  obtain ⟨mem', hput, hlook, hlast⟩ :=
    memoryPut_fresh maxMemory st.memory (keyOf url) img hmiss hpos
  have hget : getImage decode keyOf maxMemory st url =
      (some img, { st with memory := mem' }) := by
    simp only [getImage, hmiss, hdisk, hdec, hput]
  rw [hget]
  exact ⟨rfl, hlook, rfl, fun disk2 => by simp only [getImage, hlook]⟩

/-- C5 (witness). -/
theorem disk_hit_promotion_witness :
    lookupKey (CacheState.memory (⟨[], [("k", 7)]⟩ : CacheState ℕ ℕ)) "k" = none ∧
    lookupKey (CacheState.disk (⟨[], [("k", 7)]⟩ : CacheState ℕ ℕ)) "k" = some 7 ∧
    (getImage (fun b : ℕ => some b) (fun s => s) 5 ⟨[], [("k", 7)]⟩ "k").1 =
      some 7 ∧
    (getImage (fun b : ℕ => some b) (fun s => s) 5
      ⟨(getImage (fun b : ℕ => some b) (fun s => s) 5
          ⟨[], [("k", 7)]⟩ "k").2.memory, []⟩ "k").1 = some 7 := by
  have h := disk_hit_promotion ℕ ℕ (fun b => some b) (fun s => s) 5
    ⟨[], [("k", 7)]⟩ "k" 7 7 (by decide) (by decide) rfl (by decide)
  exact ⟨by decide, by decide, h.1, h.2.2.2 []⟩

/-- C1: evaluating `_resolve_template` on a reference that begins with a
recognized URL scheme.  Because the path branch tests `"/" in template`
first and every `http(s)://` URL contains a slash, the reference is
classified as a local path and resolution raises `FileNotFoundError`
(modeled: with no file of that name, the result is `fileNotFound` for every
catalog and single-item endpoint) instead of building a Template from the
URL as the specification and the repository's own tests require. -/
theorem url_reference_resolves_fileNotFound :
    isUrlRef ['h', 't', 't', 'p', 's', ':', '/', '/', 'e', 'x', 'a', 'm', 'p',
      'l', 'e', '.', 'c', 'o', 'm', '/', 't', 'e', 'm', 'p', 'l', 'a', 't',
      'e', '.', 'p', 'n', 'g'] = true ∧
    resolveTemplate (fun _ => false) (fun s => s) [] [] (fun _ => none)
      ['h', 't', 't', 'p', 's', ':', '/', '/', 'e', 'x', 'a', 'm', 'p', 'l',
       'e', '.', 'c', 'o', 'm', '/', 't', 'e', 'm', 'p', 'l', 'a', 't', 'e',
       '.', 'p', 'n', 'g'] = .fileNotFound := by
  constructor
  · decide
  · decide

/-- C6: a reference that looks like a path (contains a separator or has a
known image extension) and does not exist on the filesystem resolves to a
file-not-found failure, for every catalog and every single-item endpoint —
resolution never falls through to URL or catalog lookup. -/
theorem path_branch_fails_fast (existsFs : List Char → Bool)
    (resolvePath : List Char → List Char) (apiBase : List Char)
    (catalog : List CatalogEntry) (fetchOne : List Char → Option CatalogEntry)
    (template : List Char) (hpath : looksLikePath template = true)
    (hmiss : existsFs template = false) :
    resolveTemplate existsFs resolvePath apiBase catalog fetchOne template =
      .fileNotFound := by
  unfold resolveTemplate
  rw [if_pos hpath, if_neg (by simp [hmiss])]

/-- C6 (witness): the catalog even contains an entry whose id is exactly
the reference, and the single-item endpoint would also find it. -/
theorem path_branch_fails_fast_witness :
    looksLikePath ['m', 'i', 's', 's', 'i', 'n', 'g', '/', 'a', '.', 'p', 'n', 'g'] =
      true ∧
    resolveTemplate (fun _ => false) (fun s => s) []
      [{ id := ['m', 'i', 's', 's', 'i', 'n', 'g', '/', 'a', '.', 'p', 'n', 'g'],
         name := none, blank := none, lines := .missing, keywords := [],
         exampleText := [] }]
      (fun _ => some
        { id := ['m', 'i', 's', 's', 'i', 'n', 'g', '/', 'a', '.', 'p', 'n', 'g'],
          name := none, blank := none, lines := .missing, keywords := [],
          exampleText := [] })
      ['m', 'i', 's', 's', 'i', 'n', 'g', '/', 'a', '.', 'p', 'n', 'g'] =
      .fileNotFound :=
  ⟨by decide, path_branch_fails_fast _ _ _ _ _ _ (by decide) rfl⟩

/-- C8: for a requested line count `n > 2` both layout builders produce
exactly `n` slots in index order with `anchor_x = 0`, `scale_x = 1`,
`anchor_y = i / n` and `scale_y = 1 / n`; consecutive slots are adjacent
(no gaps, no overlap) and the bands cover the full vertical range. -/
theorem layout_slot_distribution (n : ℕ) (hn : 2 < n) :
    fromImageTextPositions n = bandPositions n ∧
    apiTextPositions (n : ℤ) = bandPositions n ∧
    (bandPositions n).length = n ∧
    (∀ i : ℕ, i < n → (bandPositions n)[i]? =
      some { anchor_x := 0, anchor_y := (i : ℚ) / (n : ℚ), scale_x := 1,
             scale_y := 1 / (n : ℚ) }) ∧
    (∀ i : ℕ, i + 1 < n → ∃ p q, (bandPositions n)[i]? = some p ∧
      (bandPositions n)[i + 1]? = some q ∧
      q.anchor_y = p.anchor_y + p.scale_y) ∧
    (∃ p, (bandPositions n)[0]? = some p ∧ p.anchor_y = 0) ∧
    (∃ q, (bandPositions n)[n - 1]? = some q ∧ q.anchor_y + q.scale_y = 1) := by
  have hn0 : (n : ℚ) ≠ 0 := Nat.cast_ne_zero.mpr (by omega)
  have hidx : ∀ i : ℕ, i < n → (bandPositions n)[i]? =
      some { anchor_x := 0, anchor_y := (i : ℚ) / (n : ℚ), scale_x := 1,
             scale_y := 1 / (n : ℚ) } := by
    intro i hi
    unfold bandPositions
    rw [List.getElem?_map, List.getElem?_range hi]
    rfl
  refine ⟨?_, ?_, by simp [bandPositions], hidx, ?_, ?_, ?_⟩
  · unfold fromImageTextPositions bandPositions
    rw [if_neg (by omega)]
    simp only [mul_one_div]
  · unfold apiTextPositions bandPositions
    rw [if_neg (by exact_mod_cast not_le.mpr hn), Int.toNat_natCast]
    simp only [mul_one_div, Int.cast_natCast]
  · intro i hi
    refine ⟨_, _, hidx i (by omega), hidx (i + 1) hi, ?_⟩
    show ((i + 1 : ℕ) : ℚ) / (n : ℚ) = (i : ℚ) / (n : ℚ) + 1 / (n : ℚ)
    rw [div_add_div_same]
    norm_cast
  · exact ⟨_, hidx 0 (by omega), by simp⟩
  · refine ⟨_, hidx (n - 1) (by omega), ?_⟩
    show ((n - 1 : ℕ) : ℚ) / (n : ℚ) + 1 / (n : ℚ) = 1
    have h1 : ((n - 1 : ℕ) : ℚ) = (n : ℚ) - 1 := by
      have : 1 ≤ n := by omega
      push_cast [this]
      ring
    rw [h1, div_add_div_same]
    field_simp

/-- C8 (witness): four requested lines give bands at anchors 0, 1/4, 1/2,
3/4, each with height 1/4. -/
theorem layout_slot_distribution_witness :
    2 < 4 ∧
    fromImageTextPositions 4 = bandPositions 4 ∧
    bandPositions 4 =
      [{ anchor_x := 0, anchor_y := 0, scale_x := 1, scale_y := 1 / 4 },
       { anchor_x := 0, anchor_y := 1 / 4, scale_x := 1, scale_y := 1 / 4 },
       { anchor_x := 0, anchor_y := 1 / 2, scale_x := 1, scale_y := 1 / 4 },
       { anchor_x := 0, anchor_y := 3 / 4, scale_x := 1, scale_y := 1 / 4 }] :=
  ⟨by decide, (layout_slot_distribution 4 (by decide)).1,
    by norm_num [bandPositions, List.range_succ]⟩

/-- C7 (counterexample): the claim's update formula
`max(floor, current * min(box_w/measured_w, box_h/measured_h) * 0.95)` omits
the clamping of the measured dimensions at 0.01; with a measured width and
height of 1/200 and a target box of 1/1000 × 1 the code computes 19/20 while
the claim's formula gives 19/10. -/
theorem fit_step_clamp_counterexample :
    fitLoop (fun _ => ((1 : ℚ) / 200, (1 : ℚ) / 200)) (1 / 1000) 1 (1 / 10) 1 10 =
      19 / 20 ∧
    fitStep (1 / 1000) 1 (1 / 10) 10 (1 / 200) (1 / 200) = 19 / 20 ∧
    (19 / 20 : ℚ) ≠
      max (1 / 10)
        (10 * min ((1 / 1000) / (1 / 200)) (1 / (1 / 200)) * (95 / 100)) := by
  have hstep : fitStep (1 / 1000) 1 (1 / 10) 10 (1 / 200) (1 / 200) = 19 / 20 := by
    unfold fitStep
    rw [show max ((1 : ℚ) / 200) (1 / 100) = 1 / 100 from max_eq_right (by norm_num),
      show ((1 : ℚ) / 1000) / (1 / 100) = 1 / 10 from by norm_num,
      show (1 : ℚ) / (1 / 100) = 100 from by norm_num,
      min_eq_left (by norm_num : (1 : ℚ) / 10 ≤ 100)]
    rw [max_eq_right (by norm_num : (1 : ℚ) / 10 ≤ 10 * (1 / 10) * (95 / 100))]
    norm_num
  refine ⟨?_, hstep, ?_⟩
  · rw [fitLoop_succ, if_neg (by norm_num), if_neg (by norm_num)]
    exact hstep
  · rw [show min ((1 : ℚ) / 1000 / (1 / 200)) (1 / (1 / 200)) = 1 / 5 from by
      rw [show ((1 : ℚ) / 1000) / (1 / 200) = 1 / 5 from by norm_num,
        show (1 : ℚ) / (1 / 200) = 200 from by norm_num]
      exact min_eq_left (by norm_num)]
    rw [max_eq_right (by norm_num : (1 : ℚ) / 10 ≤ 10 * (1 / 5) * (95 / 100))]
    norm_num

/-- C7 (amended): `_fit_text_to_box` runs at most 20 measurement iterations;
it is exactly the loop described by the claim with the code's clamping of
measured dimensions at 0.01 in the denominators (each iteration stops when
both measured dimensions are within 1.1 times the box or the size is at or
below the floor, otherwise the size becomes
`max(floor, size * min(box_w/max(w, 0.01), box_h/max(h, 0.01)) * 0.95)`);
it terminates for every measurement function, and stopping at the floor with
overflowing text returns the size normally (no error). -/
theorem fit_loop_spec (measure : ℚ → ℚ × ℚ) (boxW boxH minFontsize size0 : ℚ) :
    fitTextToBox measure boxW boxH minFontsize size0 =
      specFitLoop measure boxW boxH minFontsize 20 size0 ∧
    fitIters measure boxW boxH minFontsize 20 size0 ≤ 20 ∧
    (¬((measure size0).1 ≤ boxW * (11 / 10) ∧
        (measure size0).2 ≤ boxH * (11 / 10)) →
      size0 ≤ minFontsize →
      fitTextToBox measure boxW boxH minFontsize size0 = size0) :=
  ⟨fitLoop_eq_specFitLoop measure boxW boxH minFontsize 20 size0,
   fitIters_le measure boxW boxH minFontsize 20 size0,
   fun hnf hfl => by
     unfold fitTextToBox
     rw [fitLoop_succ, if_neg hnf, if_pos hfl]⟩

/-- C7 (witness): text that cannot fit even at the floor is returned at its
current size, a best-effort terminal state rather than an error. -/
theorem fit_loop_spec_witness :
    fitTextToBox (fun _ => (1, 1)) (1 / 100) (1 / 100) 8 5 = 5 ∧
    fitIters (fun _ => (1, 1)) (1 / 100) (1 / 100) 8 20 5 ≤ 20 :=
  ⟨(fit_loop_spec (fun _ => (1, 1)) (1 / 100) (1 / 100) 8 5).2.2 (by norm_num)
      (by norm_num),
   (fit_loop_spec (fun _ => (1, 1)) (1 / 100) (1 / 100) 8 5).2.1⟩

/-- C10 (counterexample): the URL text encoding does not round-trip: two
spaces encode to `__`, which decodes as a protected doubled underscore back
to a single `_`. -/
theorem encode_decode_roundtrip_counterexample :
    decodeTextFromUrl (encodeTextForUrl [' ', ' ']) = ['_'] ∧
    decodeTextFromUrl (encodeTextForUrl [' ', ' ']) ≠ [' ', ' '] := by
  constructor
  · decide
  · decide

/-- C10 (amended): `decode_text_from_url (encode_text_for_url t) = t` holds
for every string `t` that contains none of the characters `~`, `_`, `'`
(single quote) and `\x00`, and no two adjacent spaces.  (The excluded
characters collide with the encoding's own output: `~` starts escape
sequences, encoded spaces are underscores, doubled single quotes encode a
double quote, and `\x00` is the decoder's sentinel.) -/
theorem encode_decode_roundtrip_restricted (t : List Char)
    (hb : ∀ c ∈ t, c ∉ badChars)
    (hsp : t.Chain' fun a b => ¬(a = ' ' ∧ b = ' ')) :
    decodeTextFromUrl (encodeTextForUrl t) = t :=
  decode_encode_of_ok t hb hsp

/-- C10 (witness). -/
theorem encode_decode_roundtrip_restricted_witness :
    (∀ c ∈ ['a', ' ', 'b', '-', 'c', '?'], c ∉ badChars) ∧
    decodeTextFromUrl (encodeTextForUrl ['a', ' ', 'b', '-', 'c', '?']) =
      ['a', ' ', 'b', '-', 'c', '?'] :=
  ⟨by decide,
   encode_decode_roundtrip_restricted ['a', ' ', 'b', '-', 'c', '?'] (by decide)
     (by simp [List.chain'_cons])⟩

end Memeplotlib

